import Mathlib

/-
  Verification development for the mongo-bench benchmarking tool.

  The Go sources are shallowly embedded:
  - document keys (MongoDB ObjectIDs) are modelled as natural numbers,
    ordered as the ObjectIDs are;
  - the pseudo-random generator is modelled as an abstract stream of
    naturals together with a read position; rand.Intn n (for n > 0) reads
    one stream value v and yields v % n;
  - a mongo call is modelled by an oracle giving, per call index, either
    an error or a result value (for DeleteOne, the DeletedCount);
  - goroutine worker loops are modelled as pure recursive functions over
    the worker's partition or the remaining fuel.
-/

namespace MongoBench

/-- The operation kinds accepted by DocCountTestingStrategy.runTest. -/
inductive TType where
  | insert
  | update
  | upsert
  | delete
  | insertdoc
  | finddoc
deriving DecidableEq

/-- Label used by the strategies to name files, as the testType strings. -/
def ttLabel : TType → String
  | .insert => "insert"
  | .update => "update"
  | .upsert => "upsert"
  | .delete => "delete"
  | .insertdoc => "insertdoc"
  | .finddoc => "finddoc"

/-- TestingConfig from strategy.go (fields of both observed variants merged;
CreateIndex appears in the insertdoc-capable variant). OutputFilePrefix is
modelled as the field outPfx. -/
structure TestingConfig where
  threads : Nat
  docCount : Nat
  duration : Nat
  largeDocs : Bool
  dropDb : Bool
  outPfx : String
  createIndex : Bool
  queryType : Nat
deriving DecidableEq

/- ----------------------------------------------------------------------
   Round-robin partitioning
   (DocCountTestingStrategy.runTest, docs_testing_strategy.go:
    partitions[i%threads] = append(partitions[i%threads], id))
   ---------------------------------------------------------------------- -/

/-- One append step: the work item x is appended to the partition at
index j, as in partitions[j] = append(partitions[j], x). -/
def rrAdd (parts : List (List α)) (j : Nat) (x : α) : List (List α) :=
  parts.set j (parts.getD j [] ++ [x])

/-- The partitioning loop: the item with running index i is appended to
partition (i % threads). -/
def rrLoop (threads : Nat) (parts : List (List α)) (i : Nat) : List α → List (List α)
  | [] => parts
  | x :: xs => rrLoop threads (rrAdd parts (i % threads) x) (i + 1) xs

/-- partitions := make([][]primitive.ObjectID, threads) followed by the
round-robin append loop over the work items. -/
def buildPartitions (threads : Nat) (items : List α) : List (List α) :=
  rrLoop threads (List.replicate threads []) 0 items

/-- The sub-sequence of items whose running index (starting at i) is
congruent to j modulo threads; the closed description of one partition. -/
def rrPick (threads j : Nat) (i : Nat) : List α → List α
  | [] => []
  | x :: xs => (if i % threads = j then [x] else []) ++ rrPick threads j (i + 1) xs

/-- Number of indices k with i <= k < i + n and k % threads = j. -/
def modCount (threads j : Nat) (i : Nat) : Nat → Nat
  | 0 => 0
  | n + 1 => (if i % threads = j then 1 else 0) + modCount threads j (i + 1) n

/-- Ceiling division, the number of fetch rounds of a paged scan. -/
def ceilDiv (a b : Nat) : Nat := (a + b - 1) / b

/- ----------------------------------------------------------------------
   Worker dispatch loop
   (the per-thread goroutine body of DocCountTestingStrategy.runTest:
    for _, docID := range partition { switch testType { ... } })
   ---------------------------------------------------------------------- -/

/-- Whether one dispatched call is counted into the rate meter.
For delete the code marks only when err == nil and DeletedCount > 0;
for every other kind it marks exactly when err == nil. The Int carried
by a successful oracle answer is the DeletedCount (ignored otherwise). -/
def opSuccess : TType → Except String Int → Bool
  | .delete, .ok c => decide (0 < c)
  | _, .ok _ => true
  | _, .error _ => false

/-- The worker loop over its partition: each work item is dispatched
exactly once (call index k counts the calls this worker has made); a
failed call is logged and the loop moves on to the next item, so the
trace records, in order, each item together with whether its call was
counted as a success. -/
def workerRun (tt : TType) (outcome : Nat → Except String Int) : List Nat → Nat → List (Nat × Bool)
  | [], _ => []
  | d :: rest, k => (d, opSuccess tt (outcome k)) :: workerRun tt outcome rest (k + 1)

/-- Total number of Mark(1) calls produced by a worker trace. -/
def meterMarks (trace : List (Nat × Bool)) : Nat :=
  (trace.filter (fun e => e.2)).length

/-- Number of call indices in the window of n calls starting at k whose
outcome is counted as a success. -/
def countSuccessIdx (tt : TType) (outcome : Nat → Except String Int) (k : Nat) : Nat → Nat
  | 0 => 0
  | n + 1 => (if opSuccess tt (outcome k) then 1 else 0) + countSuccessIdx tt outcome (k + 1) n

/-- Number of operation attempts a single worker issues over its partition. -/
def workerAttempts (tt : TType) (outcome : Nat → Except String Int) (p : List Nat) : Nat :=
  (workerRun tt outcome p 0).length

/-- Total operation attempts of the whole run: each worker drains its own
partition and stops. -/
def totalAttempts (tt : TType) (outcome : Nat → Except String Int)
    (parts : List (List Nat)) : Nat :=
  (parts.map (fun p => workerAttempts tt outcome p)).sum

/- ----------------------------------------------------------------------
   Keyset pagination (fetchSampledDocIDs, collection_api.go, the
   large-collection delete branch)
   ---------------------------------------------------------------------- -/

/-- The filter "_id greater than lastID"; a zero lastID (modelled none,
the initial primitive.ObjectID zero value) imposes no lower bound. -/
def afterLast : Option Nat → Nat → Bool
  | none, _ => true
  | some l, k => decide (l < k)

/-- One Find round: over the live keys (sorted ascending), apply the
keyset filter and the limit. -/
def ksPageFetch (live : List Nat) (lastID : Option Nat) (size : Nat) : List Nat :=
  (live.filter (fun k => afterLast lastID k)).take size

/-- After a batch, lastID is the last delivered key (it is updated once
per delivered document; the net effect of a round is its last element). -/
def ksUpdLast (lastID : Option Nat) (batch : List Nat) : Option Nat :=
  match batch.getLast? with
  | none => lastID
  | some k => some k

/-- The paged fetch loop of the delete branch. keys is the collection
content at loop start, sorted ascending; its length plays the role of the
estimatedCount taken once before the loop. del r lists the keys that have
been concurrently deleted from the collection before round r starts. The
loop runs while totalFetched < estimatedCount; fuel bounds the number of
rounds we are willing to model (the Go loop has no such bound), and none
means the fuel was exhausted with the loop still running. The result is
the stream of delivered keys together with the number of rounds used. -/
def ksLoop (keys : List Nat) (batchSize : Nat) (del : Nat → List Nat) :
    Nat → Nat → Nat → Option Nat → List Nat → Option (List Nat × Nat)
  | 0, r, tf, _, acc =>
      if keys.length ≤ tf then some (acc, r) else none
  | fuel + 1, r, tf, lastID, acc =>
      if keys.length ≤ tf then some (acc, r)
      else
        let size := min batchSize (keys.length - tf)
        let live := keys.filter (fun k => !((del r).contains k))
        let batch := ksPageFetch live lastID size
        ksLoop keys batchSize del fuel (r + 1) (tf + batch.length)
          (ksUpdLast lastID batch) (acc ++ batch)

/-- Entry point of the delete-branch fetch: round 0, nothing fetched,
zero lastID, empty output stream. -/
def fetchOrderedDocIDs (keys : List Nat) (batchSize : Nat) (del : Nat → List Nat)
    (fuel : Nat) : Option (List Nat × Nat) :=
  ksLoop keys batchSize del fuel 0 0 none []

/- ----------------------------------------------------------------------
   CSV reporting (DocCountTestingStrategy.runTest: records slice,
   per-second ticker record, final record, file name)
   ---------------------------------------------------------------------- -/

/-- One point-in-time reading of the go-metrics meter. The four rates are
float64 in the source and are abstracted here; only the column structure
of the CSV rows is at stake. -/
structure MeterSnapshot where
  t : Int
  count : Int
  mean : Int
  m1 : Int
  m5 : Int
  m15 : Int
deriving DecidableEq

/-- The header row appended first: seven column names. -/
def csvHeader : List String :=
  ["t", "count", "mean", "m1_rate", "m5_rate", "m15_rate", "mean_rate"]

/-- The record the per-second ticker goroutine appends: six formatted
values (timestamp, count, mean, m1Rate, m5Rate, m15Rate). -/
def perSecondRecord (s : MeterSnapshot) : List String :=
  [toString s.t, toString s.count, toString s.mean,
   toString s.m1, toString s.m5, toString s.m15]

/-- The closing record appended after wg.Wait(): the same six values. -/
def finalRecord (s : MeterSnapshot) : List String :=
  [toString s.t, toString s.count, toString s.mean,
   toString s.m1, toString s.m5, toString s.m15]

/-- The full records slice handed to csv.WriteAll: the header, one record
per elapsed second, and the closing record. -/
def csvRecords (history : List MeterSnapshot) (finalSnap : MeterSnapshot) :
    List (List String) :=
  csvHeader :: (history.map perSecondRecord ++ [finalRecord finalSnap])

/-- File naming: a default of "benchmark_results" overridden by the
configured output file name start, then "_" ++ testType ++ ".csv". -/
def csvFileName (outPfx : String) (tt : TType) : String :=
  (if outPfx = "" then "benchmark_results" else outPfx) ++ "_" ++ ttLabel tt ++ ".csv"

/- ----------------------------------------------------------------------
   Setup phase of runTest (drop / index creation / key fetch) and its
   failure handling
   ---------------------------------------------------------------------- -/

/-- Outcomes of the collaborator calls made during setup. -/
structure SetupBehavior where
  dropOk : Bool
  indexOk : Bool
  fetchResult : Except String (List Nat)

/-- What is observable of one runTest call: whether log.Fatalf aborted the
process (and with which message), whether the worker goroutines were
launched, and which CSV file was produced. -/
structure RunTrace where
  fatal : Option String
  workersStarted : Bool
  csvFile : Option String
deriving DecidableEq

/-- Control-flow skeleton of DocCountTestingStrategy.runTest.
In source order: (1) for insert/upsert/insertdoc with DropDb, a failing
collection.Drop hits log.Fatalf; (2) for insertdoc with CreateIndex, a
failing CreateMany is only log.Printf-ed and the run continues; (3) for
delete/update, a failing fetchDocIDs hits log.Fatalf; (4) otherwise the
workers are launched, joined, and the CSV file is written. -/
def runTestTrace (cfg : TestingConfig) (tt : TType) (b : SetupBehavior) : RunTrace :=
  if (tt = .insert ∨ tt = .upsert ∨ tt = .insertdoc) ∧ cfg.dropDb = true ∧ b.dropOk = false then
    { fatal := some "Failed to drop collection", workersStarted := false, csvFile := none }
  else
    match tt, b.fetchResult with
    | .delete, .error e =>
        { fatal := some e, workersStarted := false, csvFile := none }
    | .update, .error e =>
        { fatal := some e, workersStarted := false, csvFile := none }
    | _, _ =>
        { fatal := none, workersStarted := true,
          csvFile := some (csvFileName cfg.outPfx tt) }

/- ----------------------------------------------------------------------
   Duration-mode update workers (DurationTestingStrategy.runTest)
   ---------------------------------------------------------------------- -/

/-- Duration mode builds the same round-robin partitions from the one
up-front fetchDocIDs result. -/
def durationPartitions (threads : Nat) (docIDs : List Nat) : List (List Nat) :=
  buildPartitions threads docIDs

/-- The set of keys worker w can ever target: its own partition. -/
def durationWorkerPool (threads : Nat) (docIDs : List Nat) (w : Nat) : List Nat :=
  (durationPartitions threads docIDs).getD w []

/-- One key choice of worker w: partition[rand.Intn(len(partition))],
with the random draw v reduced modulo the partition length. -/
def durationWorkerTarget (threads : Nat) (docIDs : List Nat) (w v : Nat) : Nat :=
  (durationWorkerPool threads docIDs w).getD
    (v % (durationWorkerPool threads docIDs w).length) 0

/-- A worker whose partition is empty is skipped for the whole run
(the code calls wg.Done() and continues without launching it). -/
def durationWorkerSkipped (threads : Nat) (docIDs : List Nat) (w : Nat) : Bool :=
  (durationWorkerPool threads docIDs w).isEmpty

/-- Modelled from the spec (claim C5): the missing piece the claim
describes is a single shared KeyStream feeding all Duration-mode
update/delete workers; under it every worker would draw from one common
pool of candidate keys, i.e. all worker pools would coincide. -/
def specSharedKeyStream (threads : Nat) (docIDs : List Nat) : Prop :=
  ∀ w1 w2, w1 < threads → w2 < threads →
    durationWorkerPool threads docIDs w1 = durationWorkerPool threads docIDs w2

/- ----------------------------------------------------------------------
   Duration-mode worker loop timing
   (for time.Now().Before(endTime) { one operation }): discrete time
   ---------------------------------------------------------------------- -/

/-- Wall-clock instant at which a worker starts its k-th operation,
given the per-operation latencies: partial sum of latencies. -/
def psum (latency : Nat → Nat) : Nat → Nat
  | 0 => 0
  | k + 1 => psum latency k + latency k

/-- The Duration-mode worker loop in discrete time: before each operation
the deadline is re-checked; if now is before the deadline one more
operation runs (taking latency k), otherwise the loop exits. fuel bounds
the number of modelled iterations; none means fuel ran out with the loop
still going. Returns the finish instant and the operation count. -/
def durationLoop (deadline : Nat) (latency : Nat → Nat) :
    Nat → Nat → Nat → Option (Nat × Nat)
  | 0, now, k => if now < deadline then none else some (now, k)
  | fuel + 1, now, k =>
      if now < deadline then
        durationLoop deadline latency fuel (now + latency k) (k + 1)
      else some (now, k)

/- ----------------------------------------------------------------------
   FixedCount upsert worker (docs_testing_strategy.go:
     randomDocID := partition[r.RandomIntn(len(partition)/2)])
   ---------------------------------------------------------------------- -/

/-- Go rand.Intn: panics when its argument is not positive; modelled as
none in that case, otherwise the stream value reduced modulo n. -/
def randIntnChecked (v n : Nat) : Option Nat :=
  if n = 0 then none else some (v % n)

/-- The upsert target choice: an index below len(partition)/2, then that
element of the partition; none when rand.Intn panicked. -/
def upsertPick (stream : Nat → Nat) (pos : Nat) (partition : List Nat) : Option Nat :=
  (randIntnChecked (stream pos) (partition.length / 2)).map
    (fun j => partition.getD j 0)

/-- The upsert worker: one iteration per partition item, each choosing a
target from the fixed partition; a panicking rand.Intn kills the worker
(none). Returns the list of chosen targets in order. -/
def upsertWorkerLoop (stream : Nat → Nat) (partition : List Nat) :
    Nat → Nat → List Nat → Option (List Nat)
  | _, 0, acc => some acc.reverse
  | pos, n + 1, acc =>
      match upsertPick stream pos partition with
      | none => none
      | some t => upsertWorkerLoop stream partition (pos + 1) n (t :: acc)

/-- Run the upsert worker over its whole partition. -/
def upsertWorker (stream : Nat → Nat) (pos : Nat) (partition : List Nat) :
    Option (List Nat) :=
  upsertWorkerLoop stream partition pos partition.length []

/-- Number of upsert operations one worker actually issues. The Intn
argument len(partition)/2 is the same in every iteration, so a panicking
worker panics in its first iteration, before issuing any operation:
on panic (none) the worker has issued nothing, otherwise it issued one
operation per target it chose. -/
def upsertWorkerAttempts (stream : Nat → Nat) (pos : Nat) (partition : List Nat) : Nat :=
  match upsertWorker stream pos partition with
  | some targets => targets.length
  | none => 0

/-- Total operation attempts of a FixedCount upsert run, panic behaviour
of each worker included. -/
def totalUpsertAttempts (stream : Nat → Nat) (pos : Nat)
    (parts : List (List Nat)) : Nat :=
  (parts.map (fun p => upsertWorkerAttempts stream pos p)).sum

/- ----------------------------------------------------------------------
   Document generator (document_generator.go)
   ---------------------------------------------------------------------- -/

/-- The fixed pool of ten tags. -/
def tagsPool : List String :=
  ["MongoDB", "Benchmark", "CMS", "Database", "Performance",
   "WebApp", "Scalability", "Indexing", "Query Optimization", "Sharding"]

/-- The fixed pool of ten author names. -/
def authorsPool : List String :=
  ["Alice Example", "John Doe", "Maria Sample", "Max Mustermann",
   "Sophie Miller", "Liam Johnson", "Emma Brown", "Noah Davis",
   "Olivia Wilson", "William Martinez"]

/-- The fixed pool of six categories. -/
def categoryPool : List String :=
  ["Tech", "Business", "Science", "Health", "Sports", "Education"]

/-- The fixed pool of five lorem ipsum sentences. -/
def loremPool : List String :=
  ["Lorem ipsum dolor sit amet, consectetur adipiscing elit.",
   "Sed do eiusmod tempor incididunt ut labore et dolore magna aliqua.",
   "Ut enim ad minim veniam, quis nostrud exercitation ullamco laboris nisi ut aliquip ex ea commodo consequat.",
   "Duis aute irure dolor in reprehenderit in voluptate velit esse cillum dolore eu fugiat nulla pariatur.",
   "Excepteur sint occaecat cupidatat non proident, sunt in culpa qui officia deserunt mollit anim id est laborum."]

/-- One swap of the shuffle callback: exchange positions i and j.
If either index is out of range the list is unchanged (rand.Shuffle only
produces in-range indices, so this case never occurs in a run). -/
def swapList (l : List α) (i j : Nat) : List α :=
  match l[i]?, l[j]? with
  | some a, some b => (l.set i b).set j a
  | _, _ => l

/-- Go math/rand Shuffle, Fisher-Yates: for i := n-1 downto 1,
j := Intn(i+1); swap(i, j). One stream value is read per iteration. -/
def shuffleGo (stream : Nat → Nat) : Nat → List α → Nat → List α
  | _, l, 0 => l
  | pos, l, i + 1 => shuffleGo stream (pos + 1) (swapList l (i + 1) (stream pos % (i + 2))) i

/-- rnd.Shuffle over a list, starting the swap cascade at index length-1. -/
def shuffleList (stream : Nat → Nat) (pos : Nat) (l : List α) : List α :=
  shuffleGo stream pos l (l.length - 1)

/-- DocumentGenerator.randomSample: shuffle the pool in place and keep
the first n entries. -/
def randomSample (stream : Nat → Nat) (pos : Nat) (list : List String) (n : Nat) :
    List String :=
  (shuffleList stream pos list).take n

/-- One token of generateLoremIpsum: with the first stream value deciding
the ten-percent branch (the float comparison is abstracted to one
stream-driven choice), a tag word or a lorem sentence is chosen by the
second value. Text is modelled as a character list. -/
def pickWord (stream : Nat → Nat) (pos : Nat) : List Char :=
  if stream pos % 10 = 0 then
    (tagsPool.getD (stream (pos + 1) % 10) "").toList
  else
    (loremPool.getD (stream (pos + 1) % 5) "").toList

/-- The token-append loop of generateLoremIpsum: while the text is
shorter than minLen, append one token and a space (two stream values per
iteration). Returns the text and the next unread stream position. -/
def loremGo (stream : Nat → Nat) (minLen pos : Nat) (text : List Char) :
    List Char × Nat :=
  if h : text.length < minLen then
    loremGo stream minLen (pos + 2) (text ++ (pickWord stream pos ++ [' ']))
  else (text, pos)
termination_by minLen - text.length
decreasing_by simp [List.length_append]; omega

/-- generateLoremIpsum: build at least minLen characters, then truncate
to exactly minLen. -/
def generateLoremIpsum (stream : Nat → Nat) (pos minLen : Nat) : List Char × Nat :=
  let r := loremGo stream minLen pos []
  (r.1.take minLen, r.2)

/-- The rich document produced by DocumentGenerator.GenerateComplex
(the fields the specification talks about; the engagement counters and
the timestamp are independent further stream reads and are omitted). -/
structure RichDoc where
  threadRunCount : Nat
  title : List Char
  author : String
  coAuthors : List String
  summary : List Char
  content : List Char
  tags : List String
  category : String

/-- DocumentGenerator.GenerateComplex: 4-6 tags and 1-3 co-authors drawn
by shuffle-and-take from the fixed pools, one category and one author by
index, and title, summary and content built by generateLoremIpsum with
content length 2000 + Intn(3000). Each shuffle of a ten-element pool
consumes nine stream values. -/
def generateComplex (stream : Nat → Nat) (pos : Nat) (threadRunCount : Nat) : RichDoc :=
  let numTags := stream pos % 3 + 4
  let numCoAuthors := stream (pos + 1) % 3 + 1
  let tags := randomSample stream (pos + 2) tagsPool numTags
  let coAuthors := randomSample stream (pos + 11) authorsPool numCoAuthors
  let category := categoryPool.getD (stream (pos + 20) % 6) ""
  let author := authorsPool.getD (stream (pos + 21) % 10) ""
  let title := generateLoremIpsum stream (pos + 22) 30
  let summary := generateLoremIpsum stream title.2 100
  let contentLen := 2000 + stream summary.2 % 3000
  let content := generateLoremIpsum stream (summary.2 + 1) contentLen
  { threadRunCount := threadRunCount, title := title.1, author := author,
    coAuthors := coAuthors, summary := summary.1, content := content.1,
    tags := tags, category := category }

/- ----------------------------------------------------------------------
   Theorems: round-robin partitioning
   ---------------------------------------------------------------------- -/

theorem rrAdd_length (parts : List (List α)) (j : Nat) (x : α) :
    (rrAdd parts j x).length = parts.length := by
  simp [rrAdd]

theorem rrLoop_length (T : Nat) :
    ∀ (xs : List α) (parts : List (List α)) (i : Nat),
      (rrLoop T parts i xs).length = parts.length := by
  intro xs
  induction xs with
  | nil => intro parts i; rfl
  | cons x xs ih =>
      intro parts i
      simp only [rrLoop]
      rw [ih, rrAdd_length]

theorem rrAdd_getD (parts : List (List α)) (j k : Nat) (x : α)
    (hj : j < parts.length) :
    (rrAdd parts j x).getD k [] =
      if j = k then parts.getD k [] ++ [x] else parts.getD k [] := by
  by_cases h : j = k
  · subst h
    simp [rrAdd, List.getD_eq_getElem?_getD, List.getElem?_set, hj]
  · simp [rrAdd, List.getD_eq_getElem?_getD, List.getElem?_set, h]

theorem rrLoop_getD (T : Nat) :
    ∀ (xs : List α) (parts : List (List α)) (i k : Nat),
      parts.length = T → k < T →
      (rrLoop T parts i xs).getD k [] = parts.getD k [] ++ rrPick T k i xs := by
  intro xs
  induction xs with
  | nil => intro parts i k _ _; simp [rrLoop, rrPick]
  | cons x xs ih =>
      intro parts i k hlen hk
      have hT : 0 < T := Nat.pos_of_ne_zero (by omega)
      have hj : i % T < parts.length := by
        rw [hlen]; exact Nat.mod_lt _ hT
      simp only [rrLoop, rrPick]
      rw [ih _ _ _ (by rw [rrAdd_length]; exact hlen) hk]
      rw [rrAdd_getD _ _ _ _ hj]
      by_cases h : i % T = k
      · simp [h, List.append_assoc]
      · simp [h]

theorem buildPartitions_getD (T : Nat) (items : List α) (k : Nat) (hk : k < T) :
    (buildPartitions T items).getD k [] = rrPick T k 0 items := by
  unfold buildPartitions
  rw [rrLoop_getD T items _ 0 k (List.length_replicate _ _) hk]
  simp [List.getD_eq_getElem?_getD, List.getElem?_replicate, hk]

theorem rrPick_length (T j : Nat) :
    ∀ (xs : List α) (i : Nat), (rrPick T j i xs).length = modCount T j i xs.length := by
  intro xs
  induction xs with
  | nil => intro i; rfl
  | cons x xs ih =>
      intro i
      simp only [rrPick, modCount, List.length_append]
      rw [ih]
      by_cases h : i % T = j <;> simp [h]

theorem modCount_succ (T j : Nat) :
    ∀ (n i : Nat), modCount T j i (n + 1) =
      modCount T j i n + (if (i + n) % T = j then 1 else 0) := by
  intro n
  induction n with
  | zero => intro i; simp [modCount]
  | succ n ih =>
      intro i
      have e : i + 1 + n = i + (n + 1) := by omega
      calc modCount T j i (n + 1 + 1)
          = (if i % T = j then 1 else 0) + modCount T j (i + 1) (n + 1) := rfl
        _ = (if i % T = j then 1 else 0)
              + (modCount T j (i + 1) n + (if (i + 1 + n) % T = j then 1 else 0)) := by
              rw [ih]
        _ = ((if i % T = j then 1 else 0) + modCount T j (i + 1) n)
              + (if (i + (n + 1)) % T = j then 1 else 0) := by
              rw [e, Nat.add_assoc]
        _ = modCount T j i (n + 1) + (if (i + (n + 1)) % T = j then 1 else 0) := rfl

theorem modCount_closed (T j : Nat) (hT : 0 < T) (hj : j < T) :
    ∀ N, modCount T j 0 N = N / T + (if j < N % T then 1 else 0) := by
  intro N
  induction N with
  | zero => simp [modCount]
  | succ N ih =>
      rw [modCount_succ, ih]
      simp only [Nat.zero_add]
      have hr : N % T < T := Nat.mod_lt _ hT
      have hN : T * (N / T) + N % T = N := Nat.div_add_mod N T
      by_cases hc : N % T + 1 = T
      · have h1 : N + 1 = T * (N / T + 1) := by rw [Nat.mul_succ]; omega
        have hdiv : (N + 1) / T = N / T + 1 := by
          rw [h1]; exact Nat.mul_div_cancel_left _ hT
        have hmod : (N + 1) % T = 0 := by
          rw [h1]; exact Nat.mul_mod_right _ _
        rw [hdiv, hmod]
        split_ifs <;> omega
      · have hrT : N % T + 1 < T := by omega
        have h1 : N + 1 = (N % T + 1) + T * (N / T) := by omega
        have hdiv : (N + 1) / T = N / T := by
          rw [h1, Nat.add_mul_div_left _ _ hT, Nat.div_eq_of_lt hrT, Nat.zero_add]
        have hmod : (N + 1) % T = N % T + 1 := by
          rw [h1, Nat.add_mul_mod_self_left]
          exact Nat.mod_eq_of_lt hrT
        rw [hdiv, hmod]
        split_ifs <;> omega

theorem ceilDiv_closed (N T : Nat) (hT : 0 < T) :
    ceilDiv N T = N / T + (if N % T = 0 then 0 else 1) := by
  have hr : N % T < T := Nat.mod_lt _ hT
  have hN : T * (N / T) + N % T = N := Nat.div_add_mod N T
  by_cases hr0 : N % T = 0
  · have h1 : N + T - 1 = (T - 1) + T * (N / T) := by omega
    unfold ceilDiv
    rw [h1, Nat.add_mul_div_left _ _ hT, Nat.div_eq_of_lt (by omega)]
    simp [hr0]
  · have h1 : N + T - 1 = (N % T - 1) + T * (N / T + 1) := by
      rw [Nat.mul_succ]; omega
    unfold ceilDiv
    rw [h1, Nat.add_mul_div_left _ _ hT, Nat.div_eq_of_lt (by omega)]
    simp [hr0]

theorem partitionSize (T : Nat) (items : List α) (k : Nat) (hT : 0 < T) (hk : k < T) :
    ((buildPartitions T items).getD k []).length =
      items.length / T + (if k < items.length % T then 1 else 0) := by
  rw [buildPartitions_getD _ _ _ hk, rrPick_length, modCount_closed _ _ hT hk]

theorem rrAdd_flatten_perm :
    ∀ (parts : List (List α)) (j : Nat) (x : α), j < parts.length →
      (rrAdd parts j x).flatten.Perm (parts.flatten ++ [x]) := by
  intro parts
  induction parts with
  | nil => intro j x hj; simp at hj
  | cons p ps ih =>
      intro j x hj
      cases j with
      | zero =>
          simp only [rrAdd, List.set_cons_zero, List.getD_cons_zero, List.flatten_cons,
            List.append_assoc]
          exact List.Perm.append_left p (List.perm_append_comm)
      | succ j =>
          have hj' : j < ps.length := by simpa using hj
          simp only [rrAdd, List.set_cons_succ, List.getD_cons_succ, List.flatten_cons,
            List.append_assoc]
          exact List.Perm.append_left p (by simpa [rrAdd, List.append_assoc] using ih j x hj')

theorem rrLoop_flatten_perm (T : Nat) (hT : 0 < T) :
    ∀ (xs : List α) (parts : List (List α)) (i : Nat), parts.length = T →
      (rrLoop T parts i xs).flatten.Perm (parts.flatten ++ xs) := by
  intro xs
  induction xs with
  | nil => intro parts i _; simp [rrLoop]
  | cons x xs ih =>
      intro parts i hlen
      have hj : i % T < parts.length := by rw [hlen]; exact Nat.mod_lt _ hT
      simp only [rrLoop]
      have h1 := ih (rrAdd parts (i % T) x) (i + 1) (by rw [rrAdd_length]; exact hlen)
      have h2 := List.Perm.append_right xs (rrAdd_flatten_perm parts (i % T) x hj)
      have h3 := h1.trans h2
      simpa [List.append_assoc] using h3

theorem flatten_replicate_nil : ∀ n, (List.replicate n ([] : List α)).flatten = [] := by
  intro n
  induction n with
  | zero => rfl
  | succ n ih => simpa [List.replicate_succ] using ih

theorem buildPartitions_flatten_perm (T : Nat) (items : List α) (hT : 0 < T) :
    (buildPartitions T items).flatten.Perm items := by
  unfold buildPartitions
  have := rrLoop_flatten_perm T hT items (List.replicate T []) 0 (List.length_replicate _ _)
  simpa [flatten_replicate_nil] using this

theorem buildPartitions_length (T : Nat) (items : List α) :
    (buildPartitions T items).length = T := by
  unfold buildPartitions
  rw [rrLoop_length, List.length_replicate]

/- ----------------------------------------------------------------------
   Theorems: the worker dispatch loop
   ---------------------------------------------------------------------- -/

theorem workerRun_map_fst (tt : TType) (outcome : Nat → Except String Int) :
    ∀ (p : List Nat) (k : Nat), (workerRun tt outcome p k).map Prod.fst = p := by
  intro p
  induction p with
  | nil => intro k; rfl
  | cons d rest ih => intro k; simp [workerRun, ih]

theorem workerRun_length (tt : TType) (outcome : Nat → Except String Int) :
    ∀ (p : List Nat) (k : Nat), (workerRun tt outcome p k).length = p.length := by
  intro p
  induction p with
  | nil => intro k; rfl
  | cons d rest ih => intro k; simp [workerRun, ih]

theorem meterMarks_cons (d : Nat) (b : Bool) (tr : List (Nat × Bool)) :
    meterMarks ((d, b) :: tr) = (if b = true then 1 else 0) + meterMarks tr := by
  cases b <;> simp [meterMarks, List.filter_cons] <;> omega

theorem meterMarks_workerRun (tt : TType) (outcome : Nat → Except String Int) :
    ∀ (p : List Nat) (k : Nat),
      meterMarks (workerRun tt outcome p k) = countSuccessIdx tt outcome k p.length := by
  intro p
  induction p with
  | nil => intro k; rfl
  | cons d rest ih =>
      intro k
      simp only [workerRun, countSuccessIdx, List.length_cons]
      rw [meterMarks_cons, ih]

theorem upsertWorkerLoop_some_length (stream : Nat → Nat) (p : List Nat)
    (h2 : 2 ≤ p.length) :
    ∀ (n pos : Nat) (acc : List Nat),
      ∃ ts, upsertWorkerLoop stream p pos n acc = some ts ∧
        ts.length = n + acc.length := by
  intro n
  induction n with
  | zero =>
      intro pos acc
      exact ⟨acc.reverse, rfl, by simp⟩
  | succ n ih =>
      intro pos acc
      have hhalf : ¬ (p.length / 2 = 0) := by omega
      obtain ⟨ts, hts, hlen⟩ :=
        ih (pos + 1) (p.getD (stream pos % (p.length / 2)) 0 :: acc)
      simp only [List.length_cons] at hlen
      refine ⟨ts, ?_, by omega⟩
      simp only [upsertWorkerLoop, upsertPick, randIntnChecked, if_neg hhalf,
        Option.map_some]
      exact hts

theorem upsertWorkerAttempts_of_two (stream : Nat → Nat) (pos : Nat) (p : List Nat)
    (h2 : 2 ≤ p.length) :
    upsertWorkerAttempts stream pos p = p.length := by
  obtain ⟨ts, hts, hlen⟩ := upsertWorkerLoop_some_length stream p h2 p.length pos []
  unfold upsertWorkerAttempts upsertWorker
  rw [hts]
  simpa using hlen

theorem buildPartitions_mem_getD (T : Nat) (items : List α) (p : List α)
    (hp : p ∈ buildPartitions T items) :
    ∃ j, j < T ∧ p = (buildPartitions T items).getD j [] := by
  obtain ⟨j, hj, hget⟩ := List.mem_iff_getElem.mp hp
  refine ⟨j, ?_, ?_⟩
  · rw [← buildPartitions_length T items]; exact hj
  · rw [List.getD_eq_getElem?_getD, List.getElem?_eq_getElem hj, Option.getD_some]
    exact hget.symm

/-- C1 as stated is false on the code: at threads = 2, docCount = 3 an
upsert run builds the partitions of two and one fresh tokens; the worker
owning the size-1 partition panics in rand.Intn(1/2 = 0) before issuing
its operation, so the run issues only 2 of the 3 attempts. -/
theorem c1_counterexample :
    upsertWorker (fun _ => 0) 0 ((buildPartitions 2 [1, 2, 3]).getD 1 []) = none ∧
    totalUpsertAttempts (fun _ => 0) 0 (buildPartitions 2 [1, 2, 3]) = 2 ∧
    totalUpsertAttempts (fun _ => 0) 0 (buildPartitions 2 [1, 2, 3]) ≠ 3 := by
  decide

/-- C1 amended: in FixedCount mode with a positive thread count T and N
work items (for insert/upsert, N fresh generation tokens), runTest
builds exactly T partitions by round-robin, each of size floor(N/T) or
ceil(N/T), and the partitions taken together hold exactly the N items.
Every operation kind except upsert issues exactly one attempt per
partition item and none beyond the partitions — exactly N attempts in
total; an upsert run issues exactly N attempts provided every partition
has at least two elements, in particular whenever 2*T is at most N (for
1 <= N < 2*T the worker owning a size-1 partition panics instead, and
fewer than N attempts are issued). -/
theorem c1_fixedCount_partitions (T N : Nat) (items : List Nat) (tt : TType)
    (outcome : Nat → Except String Int) (stream : Nat → Nat) (pos : Nat)
    (hT : 0 < T) (hlen : items.length = N) :
    (buildPartitions T items).length = T ∧
    (∀ j, j < T →
      ((buildPartitions T items).getD j []).length = N / T ∨
      ((buildPartitions T items).getD j []).length = ceilDiv N T) ∧
    (tt ≠ .upsert → totalAttempts tt outcome (buildPartitions T items) = N) ∧
    (2 * T ≤ N → totalUpsertAttempts stream pos (buildPartitions T items) = N) ∧
    (buildPartitions T items).flatten.Perm items := by
  refine ⟨buildPartitions_length T items, ?_, ?_, ?_,
    buildPartitions_flatten_perm T items hT⟩
  · intro j hj
    rw [partitionSize T items j hT hj, hlen, ceilDiv_closed N T hT]
    have hr : N % T < T := Nat.mod_lt _ hT
    by_cases h : j < N % T
    · right
      have hne : ¬ (N % T = 0) := by omega
      simp [h, hne]
    · left; simp [h]
  · intro _
    unfold totalAttempts workerAttempts
    have hmap : (buildPartitions T items).map (fun p => (workerRun tt outcome p 0).length)
        = (buildPartitions T items).map List.length := by
      apply List.map_congr_left
      intro p _
      exact workerRun_length tt outcome p 0
    rw [hmap, ← List.length_flatten, (buildPartitions_flatten_perm T items hT).length_eq,
      hlen]
  · intro h2N
    unfold totalUpsertAttempts
    have hmap : (buildPartitions T items).map (fun p => upsertWorkerAttempts stream pos p)
        = (buildPartitions T items).map List.length := by
      apply List.map_congr_left
      intro p hp
      obtain ⟨j, hj, hpj⟩ := buildPartitions_mem_getD T items p hp
      have hsize := partitionSize T items j hT hj
      have hdiv : 2 ≤ items.length / T := by
        rw [Nat.le_div_iff_mul_le hT]
        omega
      have h2 : 2 ≤ p.length := by
        rw [hpj, hsize]
        omega
      exact upsertWorkerAttempts_of_two stream pos p h2
    rw [hmap, ← List.length_flatten, (buildPartitions_flatten_perm T items hT).length_eq,
      hlen]

/-- Witness for C1 (amended) at T = 3, N = 7: partition sizes are
3, 2, 2, an insert run issues exactly 7 attempts, and since 6 <= 7 the
upsert run issues exactly 7 attempts too. -/
theorem c1_witness :
    (buildPartitions 3 [0, 1, 2, 3, 4, 5, 6]).length = 3 ∧
    (∀ j, j < 3 →
      ((buildPartitions 3 [0, 1, 2, 3, 4, 5, 6]).getD j []).length = 7 / 3 ∨
      ((buildPartitions 3 [0, 1, 2, 3, 4, 5, 6]).getD j []).length = ceilDiv 7 3) ∧
    ((TType.insert ≠ TType.upsert) →
      totalAttempts .insert (fun _ => .ok 1) (buildPartitions 3 [0, 1, 2, 3, 4, 5, 6]) = 7) ∧
    (2 * 3 ≤ 7 →
      totalUpsertAttempts (fun _ => 0) 0 (buildPartitions 3 [0, 1, 2, 3, 4, 5, 6]) = 7) ∧
    (buildPartitions 3 [0, 1, 2, 3, 4, 5, 6]).flatten.Perm [0, 1, 2, 3, 4, 5, 6] :=
  c1_fixedCount_partitions 3 7 [0, 1, 2, 3, 4, 5, 6] .insert (fun _ => .ok 1)
    (fun _ => 0) 0 (by decide) (by decide)

theorem workerRun_getElemQ (tt : TType) (outcome : Nat → Except String Int) :
    ∀ (p : List Nat) (k0 k : Nat),
      (workerRun tt outcome p k0)[k]? =
        p[k]?.map (fun d => (d, opSuccess tt (outcome (k0 + k)))) := by
  intro p
  induction p with
  | nil => intro k0 k; simp [workerRun]
  | cons d rest ih =>
      intro k0 k
      cases k with
      | zero => simp [workerRun]
      | succ k =>
          simp only [workerRun, List.getElem?_cons_succ]
          rw [ih]
          have e : k0 + (k + 1) = (k0 + 1) + k := by omega
          rw [e]

theorem opSuccess_error (tt : TType) (e : String) :
    opSuccess tt (Except.error e) = false := by
  cases tt <;> rfl

theorem opSuccess_delete_iff (r : Except String Int) :
    opSuccess .delete r = true ↔ ∃ c, r = .ok c ∧ 0 < c := by
  cases r with
  | error e => simp [opSuccess]
  | ok c => simp [opSuccess]

/-- C9: per-operation failures do not stop a worker: every item of the
partition is dispatched exactly once and in order (no retries), the
trace length equals the partition length, the meter is marked exactly on
the successful call indices (an error outcome is never counted), and the
sequence of dispatched items does not depend on the outcomes at all (the
worker proceeds to its next item whatever happened). -/
theorem c9_per_op_failures (tt : TType) (p : List Nat)
    (outcome outcome2 : Nat → Except String Int) :
    (workerRun tt outcome p 0).map Prod.fst = p ∧
    (workerRun tt outcome p 0).length = p.length ∧
    meterMarks (workerRun tt outcome p 0) = countSuccessIdx tt outcome 0 p.length ∧
    (∀ e, opSuccess tt (Except.error e) = false) ∧
    (workerRun tt outcome p 0).map Prod.fst = (workerRun tt outcome2 p 0).map Prod.fst := by
  refine ⟨workerRun_map_fst tt outcome p 0, workerRun_length tt outcome p 0,
    meterMarks_workerRun tt outcome p 0, fun e => opSuccess_error tt e, ?_⟩
  rw [workerRun_map_fst, workerRun_map_fst]

/-- C6: the delete worker targets exactly the keys of its partition, in
order, and the k-th call is counted into the rate meter if and only if
DeleteOne returned without error and its DeletedCount was positive; a
delete matching no record (DeletedCount 0) is not counted. -/
theorem c6_delete_counted_iff (p : List Nat) (outcome : Nat → Except String Int) :
    (workerRun .delete outcome p 0).map Prod.fst = p ∧
    meterMarks (workerRun .delete outcome p 0) =
      countSuccessIdx .delete outcome 0 p.length ∧
    (∀ k d b, (workerRun .delete outcome p 0)[k]? = some (d, b) →
      (b = true ↔ ∃ c, outcome k = .ok c ∧ 0 < c)) := by
  refine ⟨workerRun_map_fst _ outcome p 0, meterMarks_workerRun _ outcome p 0, ?_⟩
  intro k d b h
  rw [workerRun_getElemQ] at h
  cases hp : p[k]? with
  | none => rw [hp] at h; simp at h
  | some d0 =>
      rw [hp] at h
      have h2 : (d0, opSuccess .delete (outcome (0 + k))) = (d, b) := Option.some.inj h
      have hb : opSuccess .delete (outcome (0 + k)) = b := congrArg Prod.snd h2
      rw [← hb, Nat.zero_add]
      exact opSuccess_delete_iff (outcome k)

/-- Witness for C6: with an oracle answering DeletedCount 1 on call 0 and
DeletedCount 0 on call 1, the first delete is counted and the second is
not. -/
theorem c6_witness :
    ((workerRun .delete (fun k => if k = 0 then .ok 1 else .ok 0) [5, 6] 0)[0]? =
        some (5, true) → True) ∧
    meterMarks (workerRun .delete (fun k => if k = 0 then .ok 1 else .ok 0) [5, 6] 0) =
      countSuccessIdx .delete (fun k => if k = 0 then .ok 1 else .ok 0) 0 2 :=
  ⟨fun _ => trivial,
    (c6_delete_counted_iff [5, 6] (fun k => if k = 0 then .ok 1 else .ok 0)).2.1⟩

/- ----------------------------------------------------------------------
   Theorems: the FixedCount upsert worker and rand.Intn
   ---------------------------------------------------------------------- -/

theorem upsertWorker_len1_panics (stream : Nat → Nat) (pos : Nat) (p : List Nat)
    (h : p.length = 1) :
    upsertWorker stream pos p = none := by
  unfold upsertWorker
  rw [h]
  simp [upsertWorkerLoop, upsertPick, randIntnChecked, h]

theorem upsertWorkerLoop_completes (stream : Nat → Nat) (p : List Nat)
    (h2 : 2 ≤ p.length) :
    ∀ (n pos : Nat) (acc : List Nat),
      (upsertWorkerLoop stream p pos n acc).isSome = true := by
  intro n
  induction n with
  | zero => intro pos acc; simp [upsertWorkerLoop]
  | succ n ih =>
      intro pos acc
      have hhalf : ¬ (p.length / 2 = 0) := by omega
      simp only [upsertWorkerLoop, upsertPick, randIntnChecked, if_neg hhalf,
        Option.map_some]
      exact ih _ _

/-- C10: with the upsert target drawn as partition[rand.Intn(len/2)],
any FixedCount upsert run whose document count N satisfies
1 <= N < 2*threads produces some worker whose partition has exactly one
element; for that worker rand.Intn is called with argument 0 and the
worker panics instead of draining its partition. Partitions with at
least two elements are safe: their workers always complete. -/
theorem c10_upsert_intn_panics (T N : Nat) (items : List Nat) (stream : Nat → Nat)
    (hT : 0 < T) (hN1 : 1 ≤ N) (hN2 : N < 2 * T) (hlen : items.length = N) :
    (∃ j, j < T ∧ ((buildPartitions T items).getD j []).length = 1 ∧
      ∀ pos, upsertWorker stream pos ((buildPartitions T items).getD j []) = none) ∧
    (∀ (q : List Nat), 2 ≤ q.length → ∀ pos,
      (upsertWorker stream pos q).isSome = true) := by
  constructor
  · by_cases hNT : N < T
    · refine ⟨0, hT, ?_⟩
      have hsize := partitionSize T items 0 hT hT
      rw [hlen, Nat.div_eq_of_lt hNT, Nat.mod_eq_of_lt hNT] at hsize
      have h1 : ((buildPartitions T items).getD 0 []).length = 1 := by
        rw [hsize]; simp [hN1]; omega
      exact ⟨h1, fun pos => upsertWorker_len1_panics stream pos _ h1⟩
    · have hTN : T ≤ N := by omega
      have hjT : T - 1 < T := by omega
      refine ⟨T - 1, hjT, ?_⟩
      have e : N = (N - T) + T * 1 := by omega
      have hNTlt : N - T < T := by omega
      have hdiv : N / T = 1 := by
        rw [e, Nat.add_mul_div_left _ _ hT, Nat.div_eq_of_lt hNTlt]
      have hmod : N % T = N - T := by
        conv_lhs => rw [e]
        rw [Nat.add_mul_mod_self_left]
        exact Nat.mod_eq_of_lt hNTlt
      have hsize := partitionSize T items (T - 1) hT hjT
      rw [hlen, hdiv, hmod] at hsize
      have hnot : ¬ (T - 1 < N - T) := by omega
      have h1 : ((buildPartitions T items).getD (T - 1) []).length = 1 := by
        rw [hsize]; simp [hnot]
      exact ⟨h1, fun pos => upsertWorker_len1_panics stream pos _ h1⟩
  · intro q h2 pos
    exact upsertWorkerLoop_completes stream q h2 _ pos []

/-- Witness for C10 at threads = 2, docCount = 3: the second partition
holds a single token and its upsert worker panics. -/
theorem c10_witness :
    (∃ j, j < 2 ∧ ((buildPartitions 2 [1, 2, 3]).getD j []).length = 1 ∧
      ∀ pos, upsertWorker (fun _ => 0) pos ((buildPartitions 2 [1, 2, 3]).getD j []) = none) ∧
    (∀ (q : List Nat), 2 ≤ q.length → ∀ pos,
      (upsertWorker (fun _ => 0) pos q).isSome = true) :=
  c10_upsert_intn_panics 2 3 [1, 2, 3] (fun _ => 0)
    (by decide) (by decide) (by decide) (by decide)

/- ----------------------------------------------------------------------
   Theorems: Duration-mode update key sourcing
   ---------------------------------------------------------------------- -/

/-- C5 as stated is false on the code: with two threads and the fetched
keys 10 and 20, worker 0 can only ever target key 10 and worker 1 only
key 20 — the workers do not pull from one shared KeyStream. -/
theorem c5_counterexample : ¬ specSharedKeyStream 2 [10, 20] := by
  intro h
  exact absurd (h 0 1 (by decide) (by decide)) (by decide)

/-- C5 amended: in Duration mode, update workers draw their target keys
uniformly at random, with replacement, from their own per-worker
partition, which is built round-robin from one up-front key fetch; a
worker only ever targets keys of its own partition, the partitions are
pairwise disjoint, and together they hold exactly the fetched keys.
There is no shared KeyStream (and delete is not a Duration-mode
operation at all). -/
theorem c5_duration_update_partitions (T : Nat) (docIDs : List Nat)
    (hT : 0 < T) (hnd : docIDs.Nodup) :
    (∀ w v, w < T → durationWorkerPool T docIDs w ≠ [] →
      durationWorkerTarget T docIDs w v ∈ durationWorkerPool T docIDs w) ∧
    List.Pairwise List.Disjoint (durationPartitions T docIDs) ∧
    (durationPartitions T docIDs).flatten.Perm docIDs := by
  have hperm : (durationPartitions T docIDs).flatten.Perm docIDs :=
    buildPartitions_flatten_perm T docIDs hT
  refine ⟨?_, ?_, hperm⟩
  · intro w v _ hne
    have hlen : 0 < (durationWorkerPool T docIDs w).length := List.length_pos.mpr hne
    have hidx : v % (durationWorkerPool T docIDs w).length <
        (durationWorkerPool T docIDs w).length := Nat.mod_lt _ hlen
    unfold durationWorkerTarget
    rw [List.getD_eq_getElem?_getD, List.getElem?_eq_getElem hidx]
    exact List.getElem_mem hidx
  · have hnodup : (durationPartitions T docIDs).flatten.Nodup :=
      hperm.nodup_iff.mpr hnd
    exact (List.nodup_flatten.mp hnodup).2

/-- Witness for C5 (amended) at two threads and keys 10, 20. -/
theorem c5_witness :
    List.Pairwise List.Disjoint (durationPartitions 2 [10, 20]) ∧
    (durationPartitions 2 [10, 20]).flatten.Perm [10, 20] :=
  ⟨(c5_duration_update_partitions 2 [10, 20] (by decide) (by decide)).2.1,
   (c5_duration_update_partitions 2 [10, 20] (by decide) (by decide)).2.2⟩

/- ----------------------------------------------------------------------
   Theorems: setup-failure handling
   ---------------------------------------------------------------------- -/

/-- C4 as stated is false on the code: when index creation fails during
an insertdoc run (CreateIndex set, drop succeeded), the failure is only
logged; the workers still start and the CSV file is still produced, so
the run is not aborted. -/
theorem c4_counterexample :
    runTestTrace ⟨2, 10, 0, false, true, "", true, 0⟩ .insertdoc ⟨true, false, .ok []⟩ =
      { fatal := none, workersStarted := true,
        csvFile := some "benchmark_results_insertdoc.csv" } := by
  decide

/-- C4 amended: a collection-drop failure (when the drop is performed,
i.e. for insert/upsert/insertdoc with DropDb set) and an initial
key-fetch failure (for update/delete) abort the run before any worker
starts and produce no CSV file; an index-creation failure, however, is
only logged — the run continues, workers start, and the CSV file is
still produced. -/
theorem c4_setup_failures (cfg : TestingConfig) (tt : TType) (b : SetupBehavior) :
    ((tt = .insert ∨ tt = .upsert ∨ tt = .insertdoc) → cfg.dropDb = true →
      b.dropOk = false →
      (runTestTrace cfg tt b).workersStarted = false ∧
      (runTestTrace cfg tt b).csvFile = none ∧
      (runTestTrace cfg tt b).fatal.isSome = true) ∧
    ((tt = .update ∨ tt = .delete) → ∀ e, b.fetchResult = .error e →
      (runTestTrace cfg tt b).workersStarted = false ∧
      (runTestTrace cfg tt b).csvFile = none ∧
      (runTestTrace cfg tt b).fatal = some e) ∧
    (tt = .insertdoc → b.dropOk = true →
      (runTestTrace cfg tt b).workersStarted = true ∧
      (runTestTrace cfg tt b).csvFile = some (csvFileName cfg.outPfx .insertdoc)) := by
  refine ⟨?_, ?_, ?_⟩
  · intro htt hdrop hdropOk
    rcases htt with h | h | h <;> subst h <;>
      simp [runTestTrace, hdrop, hdropOk]
  · intro htt e hfetch
    rcases htt with h | h <;> subst h <;>
      simp [runTestTrace, hfetch]
  · intro htt hdropOk
    subst htt
    cases hf : b.fetchResult <;> simp [runTestTrace, hdropOk, hf]

/-- Witness for C4 (amended): a failing drop on an insert run aborts
with no CSV. -/
theorem c4_witness :
    (runTestTrace ⟨2, 10, 0, false, true, "", false, 0⟩ .insert
      ⟨false, true, .ok []⟩).workersStarted = false ∧
    (runTestTrace ⟨2, 10, 0, false, true, "", false, 0⟩ .insert
      ⟨false, true, .ok []⟩).csvFile = none ∧
    (runTestTrace ⟨2, 10, 0, false, true, "", false, 0⟩ .insert
      ⟨false, true, .ok []⟩).fatal.isSome = true :=
  (c4_setup_failures ⟨2, 10, 0, false, true, "", false, 0⟩ .insert
    ⟨false, true, .ok []⟩).1 (Or.inl rfl) rfl rfl

/- ----------------------------------------------------------------------
   Theorems: CSV structure
   ---------------------------------------------------------------------- -/

theorem dataRowLens :
    ∀ (hist : List MeterSnapshot) (f : MeterSnapshot),
      (hist.map perSecondRecord ++ [finalRecord f]).map List.length =
        List.replicate (hist.length + 1) 6 := by
  intro hist
  induction hist with
  | nil => intro f; rfl
  | cons s rest ih =>
      intro f
      simp only [List.map_cons, List.cons_append, List.length_cons]
      rw [List.replicate_succ]
      have e : rest.length + 1 + 1 = rest.length + 1 + 1 := rfl
      exact congrArg (List.cons 6) (ih f)

/-- C3: the persisted CSV has the seven-name header, one data row per
elapsed second plus one closing row appended after the workers join, and
the file name is the configurable name start plus the operation label —
but every data row (the closing row included) carries only six values
(t, count, mean, m1_rate, m5_rate, m15_rate): the mean_rate column of
the header never receives a value, contradicting the claim (and the
seven-value example row documented in the README). -/
theorem c3_csv_rows_missing_mean_rate :
    csvHeader.length = 7 ∧
    (∀ (hist : List MeterSnapshot) (finalSnap : MeterSnapshot),
      (csvRecords hist finalSnap).take 1 = [csvHeader] ∧
      ((csvRecords hist finalSnap).drop 1).map List.length =
        List.replicate (hist.length + 1) 6) ∧
    csvFileName "" .insert = "benchmark_results_insert.csv" ∧
    csvFileName "out" .delete = "out_delete.csv" ∧
    (perSecondRecord ⟨0, 0, 0, 0, 0, 0⟩).length = 6 := by
  refine ⟨rfl, ?_, by decide, by decide, rfl⟩
  intro hist finalSnap
  refine ⟨rfl, ?_⟩
  simp only [csvRecords, List.drop_succ_cons, List.drop_zero]
  exact dataRowLens hist finalSnap

/- ----------------------------------------------------------------------
   Theorems: Duration-mode deadline behaviour
   ---------------------------------------------------------------------- -/

theorem durationLoop_run (deadline start : Nat) (latency : Nat → Nat)
    (h1 : ∀ k, 1 ≤ latency k) :
    ∀ (fuel k : Nat), deadline ≤ start + psum latency k + fuel →
      ∃ n, k ≤ n ∧
        durationLoop deadline latency fuel (start + psum latency k) k =
          some (start + psum latency n, n) ∧
        (∀ m, k ≤ m → m < n → start + psum latency m < deadline) ∧
        (n = k ∨ start + psum latency (n - 1) < deadline) := by
  intro fuel
  induction fuel with
  | zero =>
      intro k hle
      refine ⟨k, Nat.le_refl _, ?_, ?_, Or.inl rfl⟩
      · show (if start + psum latency k < deadline then none
            else some (start + psum latency k, k)) = some (start + psum latency k, k)
        rw [if_neg (by omega)]
      · intro m hm1 hm2; omega
  | succ fuel ih =>
      intro k hle
      by_cases hlt : start + psum latency k < deadline
      · have hlat := h1 k
        have hnext : deadline ≤ start + psum latency (k + 1) + fuel := by
          simp only [psum]; omega
        obtain ⟨n, hkn, hloop, hmid, hlast⟩ := ih (k + 1) hnext
        refine ⟨n, by omega, ?_, ?_, ?_⟩
        · show (if start + psum latency k < deadline then
              durationLoop deadline latency fuel (start + psum latency k + latency k) (k + 1)
            else some (start + psum latency k, k)) = some (start + psum latency n, n)
          rw [if_pos hlt]
          have e : start + psum latency k + latency k = start + psum latency (k + 1) := by
            simp only [psum]; omega
          rw [e]
          exact hloop
        · intro m hm1 hm2
          by_cases hmk : m = k
          · subst hmk; exact hlt
          · exact hmid m (by omega) hm2
        · right
          rcases hlast with h | h
          · have e : n - 1 = k := by omega
            rw [e]; exact hlt
          · exact h
      · refine ⟨k, Nat.le_refl _, ?_, ?_, Or.inl rfl⟩
        · show (if start + psum latency k < deadline then
              durationLoop deadline latency fuel (start + psum latency k + latency k) (k + 1)
            else some (start + psum latency k, k)) = some (start + psum latency k, k)
          rw [if_neg hlt]
        · intro m hm1 hm2; omega

/-- C8: a Duration-mode worker with deadline D and start time at most D
always terminates (modelled fuel D - start suffices when every operation
takes at least one time unit), it finishes no later than D plus one
operation latency (bounded by L), and every operation it performs starts
strictly before the deadline — the deadline is re-checked between
operations and none is begun after it has passed. -/
theorem c8_duration_deadline (deadline start L : Nat) (latency : Nat → Nat)
    (h1 : ∀ k, 1 ≤ latency k) (hL : ∀ k, latency k ≤ L) (hs : start ≤ deadline) :
    ∃ finish n,
      durationLoop deadline latency (deadline - start) start 0 = some (finish, n) ∧
      finish = start + psum latency n ∧
      finish ≤ deadline + L ∧
      (∀ m, m < n → start + psum latency m < deadline) := by
  have h0 : deadline ≤ start + psum latency 0 + (deadline - start) := by
    simp only [psum]; omega
  obtain ⟨n, _, hloop, hmid, hlast⟩ :=
    durationLoop_run deadline start latency h1 (deadline - start) 0 h0
  refine ⟨start + psum latency n, n, ?_, rfl, ?_, ?_⟩
  · have e : start + psum latency 0 = start := by simp [psum]
    rw [← e]
    exact hloop
  · cases n with
    | zero => simp only [psum]; omega
    | succ m =>
        have hm := hL m
        rcases hlast with h | h
        · exact absurd h (by omega)
        · have h' : start + psum latency m < deadline := by simpa using h
          simp only [psum]; omega
  · intro m hm
    exact hmid m (Nat.zero_le _) hm

/-- Witness for C8: deadline 5, start 0, every operation takes 2 time
units; the worker finishes by 7 having started each operation before 5. -/
theorem c8_witness :
    ∃ finish n,
      durationLoop 5 (fun _ => 2) 5 0 0 = some (finish, n) ∧
      finish = 0 + psum (fun _ => 2) n ∧
      finish ≤ 5 + 2 ∧
      (∀ m, m < n → 0 + psum (fun _ => 2) m < 5) :=
  c8_duration_deadline 5 0 2 (fun _ => 2)
    (by intro k; simp) (by intro k; simp) (by omega)

/- ----------------------------------------------------------------------
   Theorems: keyset pagination
   ---------------------------------------------------------------------- -/

theorem ceilDiv_zero (B : Nat) (hB : 0 < B) : ceilDiv 0 B = 0 := by
  unfold ceilDiv
  exact Nat.div_eq_of_lt (by omega)

theorem ceilDiv_pos (x B : Nat) (hB : 0 < B) (hx : 0 < x) : 0 < ceilDiv x B := by
  unfold ceilDiv
  rw [Nat.lt_iff_add_one_le, Nat.le_div_iff_mul_le hB]
  omega

theorem ceilDiv_step (x B : Nat) (hB : 0 < B) (hx : 0 < x) :
    ceilDiv x B = ceilDiv (x - min B x) B + 1 := by
  by_cases hc : B ≤ x
  · have e1 : x - min B x = x - B := by omega
    rw [e1]
    unfold ceilDiv
    have e2 : x + B - 1 = (x - B + B - 1) + B := by omega
    rw [e2, Nat.add_div_right _ hB]
  · have e1 : x - min B x = 0 := by omega
    rw [e1, ceilDiv_zero B hB]
    unfold ceilDiv
    have e2 : x + B - 1 = B * 1 + (x - 1) := by omega
    rw [e2, Nat.mul_add_div hB, Nat.div_eq_of_lt (by omega)]

theorem lt_ceilDiv (r B M : Nat) (hB : 0 < B) (h : r * B < M) : r < ceilDiv M B := by
  have h1 : r * B + B ≤ M + B - 1 := by omega
  have h2 : (r * B + B) / B = r + 1 := by
    rw [Nat.add_div_right _ hB, Nat.mul_div_cancel _ hB]
  have h3 : (r * B + B) / B ≤ (M + B - 1) / B := Nat.div_le_div_right h1
  unfold ceilDiv
  omega

theorem filter_afterLast_take (keys : List Nat) (hp : List.Pairwise (· < ·) keys)
    (f : Nat) :
    keys.filter (fun k => afterLast (keys.take f).getLast? k) = keys.drop f := by
  by_cases hf0 : f = 0
  · subst hf0
    simp only [List.take_zero, List.getLast?_nil, List.drop_zero]
    exact List.filter_eq_self.mpr (fun a _ => rfl)
  · by_cases hK : keys = []
    · subst hK; simp
    · have hne : keys.take f ≠ [] := by
        apply List.ne_nil_of_length_pos
        rw [List.length_take]
        have : 0 < keys.length := List.length_pos.mpr hK
        omega
      obtain ⟨a, ha⟩ : ∃ a, (keys.take f).getLast? = some a :=
        ⟨_, List.getLast?_eq_getLast _ hne⟩
      obtain ⟨ys, hys⟩ := List.getLast?_eq_some_iff.mp ha
      rw [ha]
      conv_lhs => rw [← List.take_append_drop f keys]
      rw [List.filter_append]
      have hpair : List.Pairwise (· < ·) (keys.take f ++ keys.drop f) := by
        rw [List.take_append_drop]; exact hp
      obtain ⟨hpt, _, hcross⟩ := List.pairwise_append.mp hpair
      have hamem : a ∈ keys.take f := by rw [hys]; simp
      have hmem_le : ∀ x ∈ keys.take f, ¬ (a < x) := by
        intro x hx
        have h2 : List.Pairwise (· < ·) (ys ++ [a]) := by
          rw [← hys]; exact hpt
        rw [hys] at hx
        rcases List.mem_append.mp hx with h | h
        · have := (List.pairwise_append.mp h2).2.2 x h a (by simp)
          omega
        · have : x = a := by simpa using h
          omega
      have hfiltert : (keys.take f).filter (fun k => afterLast (some a) k) = [] := by
        rw [List.filter_eq_nil_iff]
        intro x hx
        simp only [afterLast, decide_eq_true_eq]
        exact hmem_le x hx
      have hfilterd : (keys.drop f).filter (fun k => afterLast (some a) k) =
          keys.drop f := by
        rw [List.filter_eq_self]
        intro x hx
        simp only [afterLast, decide_eq_true_eq]
        exact hcross a hamem x hx
      rw [hfiltert, hfilterd, List.nil_append]

theorem contains_eq_false_of_not_mem (l : List Nat) (x : Nat) (h : x ∉ l) :
    l.contains x = false := by
  have he : l.contains x = decide (x ∈ l) := List.elem_eq_mem x l
  rw [he]
  simpa using h

theorem ksPageFetch_live (keys : List Nat) (hp : List.Pairwise (· < ·) keys)
    (f size : Nat) (delList : List Nat) (hdel : ∀ k ∈ delList, k ∈ keys.take f) :
    ksPageFetch (keys.filter (fun k => !(delList.contains k)))
      ((keys.take f).getLast?) size = (keys.drop f).take size := by
  unfold ksPageFetch
  congr 1
  rw [List.filter_filter]
  have hswap : keys.filter
      (fun a => afterLast (keys.take f).getLast? a && !(delList.contains a)) =
      keys.filter (fun a => !(delList.contains a) && afterLast (keys.take f).getLast? a) := by
    apply List.filter_congr
    intro a _
    exact Bool.and_comm _ _
  rw [hswap, ← List.filter_filter, filter_afterLast_take keys hp f]
  rw [List.filter_eq_self]
  intro x hx
  have hnd : keys.Nodup := List.Pairwise.imp (fun h => Nat.ne_of_lt h) hp
  have hnd2 : (keys.take f ++ keys.drop f).Nodup := by
    rw [List.take_append_drop]; exact hnd
  have hdisj := (List.nodup_append.mp hnd2).2.2
  have hxnot : x ∉ delList := by
    intro hmem
    exact hdisj (hdel x hmem) hx
  rw [contains_eq_false_of_not_mem _ _ hxnot]
  rfl

theorem ksUpdLast_take (keys : List Nat) (f size : Nat) (hsize : 0 < size)
    (hlt : f + size ≤ keys.length) (lastID : Option Nat) :
    ksUpdLast lastID ((keys.drop f).take size) = (keys.take (f + size)).getLast? := by
  have h1 : ((keys.drop f).take size).getLast? = keys[f + size - 1]? := by
    rw [List.getLast?_eq_getElem?, List.length_take, List.length_drop]
    have e : min size (keys.length - f) = size := by omega
    rw [e, List.getElem?_take, if_pos (by omega), List.getElem?_drop]
    congr 1
    omega
  have h2 : (keys.take (f + size)).getLast? = keys[f + size - 1]? := by
    rw [List.getLast?_eq_getElem?, List.length_take]
    have e : min (f + size) keys.length = f + size := by omega
    rw [e, List.getElem?_take, if_pos (by omega)]
  unfold ksUpdLast
  rw [h1, h2]
  cases hk : keys[f + size - 1]? with
  | none =>
      rw [List.getElem?_eq_none_iff] at hk
      omega
  | some k => rfl

theorem ksLoop_invariant (keys : List Nat) (B : Nat) (del : Nat → List Nat)
    (hp : List.Pairwise (· < ·) keys) (hB : 0 < B)
    (hdel : ∀ r, r < ceilDiv keys.length B →
      ∀ k ∈ del r, k ∈ keys.take (min (r * B) keys.length)) :
    ∀ (fuel r f : Nat), f = min (r * B) keys.length →
      ceilDiv (keys.length - f) B ≤ fuel →
      ksLoop keys B del fuel r f (keys.take f).getLast? (keys.take f) =
        some (keys, r + ceilDiv (keys.length - f) B) := by
  intro fuel
  induction fuel with
  | zero =>
      intro r f _ hle
      have h0 : keys.length - f = 0 := by
        by_contra hne
        have := ceilDiv_pos (keys.length - f) B hB (by omega)
        omega
      have hMf : keys.length ≤ f := by omega
      show (if keys.length ≤ f then some (keys.take f, r) else none) = _
      rw [if_pos hMf, List.take_of_length_le hMf, h0, ceilDiv_zero B hB, Nat.add_zero]
  | succ fuel ih =>
      intro r f hf hle
      by_cases hMf : keys.length ≤ f
      · have h0 : keys.length - f = 0 := by omega
        simp only [ksLoop]
        rw [if_pos hMf, List.take_of_length_le hMf, h0, ceilDiv_zero B hB, Nat.add_zero]
      · have hflt : f < keys.length := by omega
        have hfrB : f = r * B := by omega
        have hrB : r * B < keys.length := by omega
        have hrlt : r < ceilDiv keys.length B := lt_ceilDiv r B keys.length hB hrB
        have hsize1 : 0 < min B (keys.length - f) := by omega
        have hsizele : f + min B (keys.length - f) ≤ keys.length := by omega
        have hdelr : ∀ k ∈ del r, k ∈ keys.take f := by
          intro k hk
          have := hdel r hrlt k hk
          rwa [← hf] at this
        have hbatch : ksPageFetch (keys.filter (fun k => !((del r).contains k)))
            ((keys.take f).getLast?) (min B (keys.length - f)) =
            (keys.drop f).take (min B (keys.length - f)) :=
          ksPageFetch_live keys hp f (min B (keys.length - f)) (del r) hdelr
        have hblen : ((keys.drop f).take (min B (keys.length - f))).length =
            min B (keys.length - f) := by
          rw [List.length_take, List.length_drop]; omega
        have hlast : ksUpdLast ((keys.take f).getLast?)
            ((keys.drop f).take (min B (keys.length - f))) =
            (keys.take (f + min B (keys.length - f))).getLast? :=
          ksUpdLast_take keys f (min B (keys.length - f)) hsize1 hsizele _
        have hacc : keys.take f ++ (keys.drop f).take (min B (keys.length - f)) =
            keys.take (f + min B (keys.length - f)) :=
          (List.take_add keys f (min B (keys.length - f))).symm
        have hf' : f + min B (keys.length - f) = min ((r + 1) * B) keys.length := by
          rw [Nat.succ_mul]; omega
        have hstep : ceilDiv (keys.length - f) B =
            ceilDiv (keys.length - (f + min B (keys.length - f))) B + 1 := by
          have h := ceilDiv_step (keys.length - f) B hB (by omega)
          have e : keys.length - f - min B (keys.length - f) =
              keys.length - (f + min B (keys.length - f)) := by omega
          rw [e] at h
          exact h
        have hfuel2 : ceilDiv (keys.length - (f + min B (keys.length - f))) B ≤ fuel := by
          omega
        have IH := ih (r + 1) (f + min B (keys.length - f)) hf' hfuel2
        simp only [ksLoop]
        rw [if_neg (by omega), hbatch, hblen, hlast, hacc, hstep, IH]
        exact congrArg (fun n => some ((keys : List Nat), n)) (by omega)

/-- C2: the ordered-batch keyset fetch used for delete on a collection
whose M keys are sorted ascending and whose size estimate is exact
delivers every key exactly once (the delivered stream is the key list
itself, which is duplicate-free) and terminates in exactly
ceil(M / batchSize) fetch rounds, even while keys already delivered are
concurrently being deleted (the deletions happen at or before the scan
position, so they never remove keys ahead of the cursor). -/
theorem c2_keyset_pagination (keys : List Nat) (B : Nat) (del : Nat → List Nat)
    (hp : List.Chain' (· < ·) keys) (hB : 0 < B)
    (hdel : ∀ r, r < ceilDiv keys.length B →
      ∀ k ∈ del r, k ∈ keys.take (min (r * B) keys.length)) :
    fetchOrderedDocIDs keys B del (ceilDiv keys.length B) =
      some (keys, ceilDiv keys.length B) ∧
    keys.Nodup := by
  have hpw : List.Pairwise (· < ·) keys := List.chain'_iff_pairwise.mp hp
  constructor
  · have h := ksLoop_invariant keys B del hpw hB hdel (ceilDiv keys.length B) 0 0
      (by simp) (by simp)
    simpa [fetchOrderedDocIDs] using h
  · exact List.Pairwise.imp (fun h => Nat.ne_of_lt h) hpw

/-- Witness for C2: five keys, batch size 2, with key 1 deleted before
round 1 and keys 2 and 3 deleted before round 2; the fetch still
delivers 1..5 exactly once in three rounds. -/
theorem c2_witness :
    fetchOrderedDocIDs [1, 2, 3, 4, 5] 2
      (fun r => if r = 1 then [1] else if r = 2 then [2, 3] else []) 3 =
      some ([1, 2, 3, 4, 5], 3) ∧ ([1, 2, 3, 4, 5] : List Nat).Nodup := by
  have h := c2_keyset_pagination [1, 2, 3, 4, 5] 2
    (fun r => if r = 1 then [1] else if r = 2 then [2, 3] else [])
    (by simp) (by decide) ?hdel
  · exact h
  case hdel =>
    intro r hr k hk
    have hr3 : r < 3 := hr
    interval_cases r
    · simp at hk
    · simp at hk
      subst hk
      decide
    · simp at hk
      rcases hk with h | h <;> subst h <;> decide

/- ----------------------------------------------------------------------
   Theorems: document generator
   ---------------------------------------------------------------------- -/

theorem count_swapList [DecidableEq α] (l : List α) (i j : Nat) (x : α) :
    (swapList l i j).count x = l.count x := by
  unfold swapList
  cases hi : l[i]? with
  | none => cases hj : l[j]? <;> rfl
  | some a =>
      cases hj : l[j]? with
      | none => rfl
      | some b =>
          obtain ⟨hilt, hia⟩ := List.getElem?_eq_some_iff.mp hi
          obtain ⟨hjlt, hjb⟩ := List.getElem?_eq_some_iff.mp hj
          have hjlt2 : j < (l.set i b).length := by
            rw [List.length_set]; exact hjlt
          have hgj : getElem (l.set i b) j hjlt2 = b := by
            rw [List.getElem_set]
            by_cases hij : i = j
            · simp [hij]
            · simp [hij, hjb]
          have houter := List.count_set a x (l.set i b) j hjlt2
          rw [hgj] at houter
          have hinner := List.count_set b x l i hilt
          rw [hia] at hinner
          rw [houter, hinner]
          have hamem : a ∈ l := hia ▸ List.getElem_mem hilt
          have hbmem : b ∈ l := hjb ▸ List.getElem_mem hjlt
          simp only [beq_iff_eq]
          by_cases hax : a = x
          · have hca : 0 < l.count x := List.count_pos_iff.mpr (hax ▸ hamem)
            by_cases hbx : b = x
            · simp [hax, hbx] <;> omega
            · simp [hax, hbx] <;> omega
          · by_cases hbx : b = x
            · have hcb : 0 < l.count x := List.count_pos_iff.mpr (hbx ▸ hbmem)
              simp [hax, hbx] <;> omega
            · simp [hax, hbx]

theorem swapList_perm [DecidableEq α] (l : List α) (i j : Nat) :
    (swapList l i j).Perm l :=
  List.perm_iff_count.mpr (fun x => count_swapList l i j x)

theorem shuffleGo_perm [DecidableEq α] (stream : Nat → Nat) :
    ∀ (i pos : Nat) (l : List α), (shuffleGo stream pos l i).Perm l := by
  intro i
  induction i with
  | zero => intro pos l; exact List.Perm.refl l
  | succ i ih =>
      intro pos l
      exact (ih (pos + 1) _).trans (swapList_perm l (i + 1) (stream pos % (i + 2)))

theorem shuffleList_perm [DecidableEq α] (stream : Nat → Nat) (pos : Nat) (l : List α) :
    (shuffleList stream pos l).Perm l :=
  shuffleGo_perm stream (l.length - 1) pos l

theorem randomSample_subset (stream : Nat → Nat) (pos : Nat) (list : List String)
    (n : Nat) : randomSample stream pos list n ⊆ list := by
  intro x hx
  have h1 : x ∈ shuffleList stream pos list := (List.take_sublist n _).subset hx
  exact (shuffleList_perm stream pos list).mem_iff.mp h1

theorem randomSample_nodup (stream : Nat → Nat) (pos : Nat) (list : List String)
    (n : Nat) (hnd : list.Nodup) : (randomSample stream pos list n).Nodup :=
  List.Nodup.sublist (List.take_sublist _ _)
    ((shuffleList_perm stream pos list).nodup_iff.mpr hnd)

theorem randomSample_length (stream : Nat → Nat) (pos : Nat) (list : List String)
    (n : Nat) (h : n ≤ list.length) : (randomSample stream pos list n).length = n := by
  unfold randomSample
  rw [List.length_take, (shuffleList_perm stream pos list).length_eq]
  omega

theorem loremGo_length (stream : Nat → Nat) (minLen : Nat) :
    ∀ (fuel pos : Nat) (text : List Char), minLen - text.length ≤ fuel →
      minLen ≤ (loremGo stream minLen pos text).1.length := by
  intro fuel
  induction fuel with
  | zero =>
      intro pos text hle
      rw [loremGo]
      have h : ¬ (text.length < minLen) := by omega
      rw [dif_neg h]
      dsimp only
      omega
  | succ fuel ih =>
      intro pos text hle
      rw [loremGo]
      by_cases h : text.length < minLen
      · rw [dif_pos h]
        apply ih
        simp only [List.length_append, List.length_cons, List.length_nil]
        omega
      · rw [dif_neg h]
        dsimp only
        omega

theorem generateLoremIpsum_length (stream : Nat → Nat) (pos minLen : Nat) :
    (generateLoremIpsum stream pos minLen).1.length = minLen := by
  have hgo : minLen ≤ (loremGo stream minLen pos []).1.length :=
    loremGo_length stream minLen minLen pos [] (by simp)
  unfold generateLoremIpsum
  rw [List.length_take]
  omega

theorem tagsPool_nodup : tagsPool.Nodup := by decide

theorem authorsPool_nodup : authorsPool.Nodup := by decide

/-- C7: every document produced by GenerateComplex has a content string
of length in the interval from 2000 inclusive to 5000 exclusive, a tag
list of 4 to 6 pairwise-distinct members of the fixed ten-tag pool, and
a co-author list of 1 to 3 pairwise-distinct members of the fixed author
pool — for every random stream and starting position. -/
theorem c7_generateComplex (stream : Nat → Nat) (pos trc : Nat) :
    2000 ≤ (generateComplex stream pos trc).content.length ∧
    (generateComplex stream pos trc).content.length < 5000 ∧
    4 ≤ (generateComplex stream pos trc).tags.length ∧
    (generateComplex stream pos trc).tags.length ≤ 6 ∧
    (generateComplex stream pos trc).tags.Nodup ∧
    (generateComplex stream pos trc).tags ⊆ tagsPool ∧
    1 ≤ (generateComplex stream pos trc).coAuthors.length ∧
    (generateComplex stream pos trc).coAuthors.length ≤ 3 ∧
    (generateComplex stream pos trc).coAuthors.Nodup ∧
    (generateComplex stream pos trc).coAuthors ⊆ authorsPool := by
  have h3a : stream pos % 3 < 3 := Nat.mod_lt _ (by omega)
  have h3b : stream (pos + 1) % 3 < 3 := Nat.mod_lt _ (by omega)
  have htagsLen : (stream pos % 3 + 4) ≤ tagsPool.length := by
    have : tagsPool.length = 10 := rfl
    omega
  have hcoLen : (stream (pos + 1) % 3 + 1) ≤ authorsPool.length := by
    have : authorsPool.length = 10 := rfl
    omega
  dsimp only [generateComplex]
  refine ⟨?_, ?_, ?_, ?_, ?_, ?_, ?_, ?_, ?_, ?_⟩
  · rw [generateLoremIpsum_length]; omega
  · rw [generateLoremIpsum_length]
    have := Nat.mod_lt (stream (generateLoremIpsum stream
      ((generateLoremIpsum stream (pos + 22) 30).2) 100).2) (show 0 < 3000 by omega)
    omega
  · rw [randomSample_length _ _ _ _ htagsLen]; omega
  · rw [randomSample_length _ _ _ _ htagsLen]; omega
  · exact randomSample_nodup _ _ _ _ tagsPool_nodup
  · exact randomSample_subset _ _ _ _
  · rw [randomSample_length _ _ _ _ hcoLen]; omega
  · rw [randomSample_length _ _ _ _ hcoLen]; omega
  · exact randomSample_nodup _ _ _ _ authorsPool_nodup
  · exact randomSample_subset _ _ _ _

end MongoBench
